import Mathlib

/-!
Verification of the GOP pronunciation-scoring pipeline
(`aggregate_utterance_scores.py`, `aggregate_ml_scores.py`,
`compute_pronunciation_score.py`).

Numeric values are embedded as rationals (`ℚ`): every arithmetic
operation that the claims touch (linear formulas at exact breakpoints,
sums, divisions) is exact, and the Python floating-point computations
agree with the rational ones on all inputs the claims evaluate.
The standard deviation is carried as its square (the population
variance), since the square root of a rational is irrational in
general; every property stated about the standard deviation is stated
equivalently about its square.
-/

namespace GopScore

/-! ### compute_pronunciation_score.py -/

/-- Branch `diff >= 0` of `gop_to_score`, baseline-relative mode. -/
def brBranch1 (max_score : ℚ) : ℚ := max_score

/-- Branch `diff >= -2` of `gop_to_score`: `max_score + (diff / 2) * 10`. -/
def brBranch2 (diff max_score : ℚ) : ℚ := max_score + (diff / 2) * 10

/-- Branch `diff >= -5` of `gop_to_score`: `90 + ((diff + 2) / 3) * 40`. -/
def brBranch3 (diff : ℚ) : ℚ := 90 + ((diff + 2) / 3) * 40

/-- Final baseline-relative branch: `max(50 + ((diff + 5) / 5) * 50, min_score)`. -/
def brBranch4 (diff min_score : ℚ) : ℚ := max (50 + ((diff + 5) / 5) * 50) min_score

/-- Branch `gop_value >= 0` of `gop_to_score`, baseline-free mode:
`90 + min(gop_value * 2, 10)`. -/
def bfBranch1 (raw : ℚ) : ℚ := 90 + min (raw * 2) 10

/-- Branch `gop_value >= -1`: `80 + (gop_value + 1) * 10`. -/
def bfBranch2 (raw : ℚ) : ℚ := 80 + (raw + 1) * 10

/-- Branch `gop_value >= -3`: `60 + ((gop_value + 1) / 2) * 20`. -/
def bfBranch3 (raw : ℚ) : ℚ := 60 + ((raw + 1) / 2) * 20

/-- Branch `gop_value >= -5`: `40 + ((gop_value + 3) / 2) * 20`. -/
def bfBranch4 (raw : ℚ) : ℚ := 40 + ((raw + 3) / 2) * 20

/-- Final baseline-free branch: `max(40 + ((gop_value + 5) / 5) * 40, min_score)`. -/
def bfBranch5 (raw min_score : ℚ) : ℚ := max (40 + ((raw + 5) / 5) * 40) min_score

/-- `gop_to_score` from `compute_pronunciation_score.py`: piecewise
calibration (baseline-relative when a baseline is given, baseline-free
otherwise) followed by the final clamp
`max(min(score, max_score), min_score)`. -/
def gop_to_score (gop_value : ℚ) (baseline : Option ℚ)
    (min_score : ℚ := 0) (max_score : ℚ := 100) : ℚ :=
  let score :=
    match baseline with
    | some b =>
      let diff := gop_value - b
      if diff ≥ 0 then brBranch1 max_score
      else if diff ≥ -2 then brBranch2 diff max_score
      else if diff ≥ -5 then brBranch3 diff
      else brBranch4 diff min_score
    | none =>
      if gop_value ≥ 0 then bfBranch1 gop_value
      else if gop_value ≥ -1 then bfBranch2 gop_value
      else if gop_value ≥ -3 then bfBranch3 gop_value
      else if gop_value ≥ -5 then bfBranch4 gop_value
      else bfBranch5 gop_value min_score
  max (min score max_score) min_score

/-- The discrete grade labels of the report
(`Excellent / Good / Fair / Needs Improvement / Poor`). -/
inductive Grade where
  | Excellent
  | Good
  | Fair
  | NeedsImprovement
  | Poor
deriving DecidableEq, Repr

/-- Grade assignment from `main` of `compute_pronunciation_score.py`:
thresholds 90 / 80 / 70 / 60 on the final clamped score. -/
def gradeOf (score : ℚ) : Grade :=
  if score ≥ 90 then .Excellent
  else if score ≥ 80 then .Good
  else if score ≥ 70 then .Fair
  else if score ≥ 60 then .NeedsImprovement
  else .Poor

/-! ### numpy statistics used by both aggregators -/

/-- `np.mean`: arithmetic mean (0 on the empty list, which the scripts
never reach because empty groups are skipped). -/
def npMean (l : List ℚ) : ℚ := l.sum / l.length

/-- `np.min` on a nonempty list. -/
def npMin : List ℚ → ℚ
  | [] => 0
  | x :: xs => xs.foldl min x

/-- `np.max` on a nonempty list. -/
def npMax : List ℚ → ℚ
  | [] => 0
  | x :: xs => xs.foldl max x

/-- `np.median`: sort ascending, take the middle element for odd length
and the mean of the two middle elements for even length. -/
def npMedian (l : List ℚ) : ℚ :=
  let s := l.insertionSort (· ≤ ·)
  let n := s.length
  if n % 2 = 1 then s.getD (n / 2) 0
  else (s.getD (n / 2 - 1) 0 + s.getD (n / 2) 0) / 2

/-- The square of `np.std` (population variance, divisor = count):
mean of the squared deviations from the mean. -/
def npStdSq (l : List ℚ) : ℚ :=
  ((l.map (fun v => (v - npMean l) ^ 2)).sum) / l.length

/-! ### aggregate_utterance_scores.py -/

/-- The `--method` choices of `aggregate_utterance_scores.py`
(`get_args`, line 22). -/
def utteranceMethodChoices : List String := ["mean", "median", "min", "weighted"]

/-- The aggregation methods `aggregate_utterance_scores.py` accepts. -/
inductive AggMethod where
  | mean
  | median
  | min
  | weighted
deriving DecidableEq, Repr

/-- The per-utterance record of `aggregate_utterance_scores.py`
(`scores[key]`); `std_gop_sq` is the square of the code's `np.std` field. -/
structure UttResult where
  score : ℚ
  num_phones : ℕ
  min_gop : ℚ
  max_gop : ℚ
  std_gop_sq : ℚ
deriving DecidableEq, Repr

/-- The silence-filtering loop of `main`: collect `gop` from each
`(ph, gop)` pair, skipping silence phones `0, 1, 2` when requested. -/
def extractGopValues (skipSilence : Bool) (gops : List (Int × ℚ)) : List ℚ :=
  gops.foldl
    (fun gop_values p =>
      if skipSilence ∧ p.1 ∈ ([0, 1, 2] : List Int) then gop_values
      else gop_values ++ [p.2])
    []

/-- The method dispatch of `main` in `aggregate_utterance_scores.py`:
`mean`, `median`, `min`, or the absolute-value-weighted mean with its
zero-weight fallback to `np.mean`. -/
def uttAgg (method : AggMethod) (gop_values : List ℚ) : ℚ :=
  match method with
  | .mean => npMean gop_values
  | .median => npMedian gop_values
  | .min => npMin gop_values
  | .weighted =>
    let weights := gop_values.map (fun v => |v|)
    if weights.sum > 0 then
      ((gop_values.zip weights).map (fun p => p.1 * p.2)).sum / weights.sum
    else npMean gop_values

/-- One loop iteration of `main` in `aggregate_utterance_scores.py`:
filter silence phones, skip the utterance when nothing remains,
otherwise aggregate and record the summary statistics. -/
def processUtterance (skipSilence : Bool) (method : AggMethod)
    (gops : List (Int × ℚ)) : Option UttResult :=
  let gop_values := extractGopValues skipSilence gops
  if gop_values.length = 0 then none
  else some
    { score := uttAgg method gop_values
      num_phones := gop_values.length
      min_gop := npMin gop_values
      max_gop := npMax gop_values
      std_gop_sq := npStdSq gop_values }

/-! ### aggregate_ml_scores.py -/

/-- The `--method` choices of `aggregate_ml_scores.py`
(`get_args`, lines 16-18). -/
def mlMethodChoices : List String := ["mean", "median", "min", "max"]

/-- The aggregation methods `aggregate_ml_scores.py` accepts. -/
inductive MlMethod where
  | mean
  | median
  | min
  | max
deriving DecidableEq, Repr

/-- Python's `str.split('.')` on the character list of a key. -/
def splitDot : List Char → List (List Char)
  | [] => [[]]
  | c :: cs =>
    if c = '.' then [] :: splitDot cs
    else
      match splitDot cs with
      | [] => [[c]]
      | h :: t => (c :: h) :: t

/-- Python's `'.'.join` on a list of character lists. -/
def joinDot : List (List Char) → List Char
  | [] => []
  | [x] => x
  | x :: xs => x ++ '.' :: joinDot xs

/-- `'.'.join(phone_key.split('.')[:-1])` from `main` of
`aggregate_ml_scores.py`: drop the last dot-delimited segment. -/
def uttIdOf (phone_key : String) : String :=
  ⟨joinDot (splitDot phone_key.data).dropLast⟩

/-- Models Python's `float(s)` for plain decimal literals (optional
sign, digits, optional fractional part); every other string fails.
This stands in for the CPython float parser, which is not part of the
repository; the claims depend only on success versus failure. -/
def parseFloat (s : String) : Option ℚ :=
  let parseUnsigned : List Char → Option ℚ := fun cs =>
    match splitDot cs with
    | [ds] =>
      if ds ≠ [] ∧ ds.all Char.isDigit then
        some (ds.foldl (fun acc c => acc * 10 + (c.toNat - 48)) 0 : ℕ)
      else none
    | [as, bs] =>
      if (as ≠ [] ∨ bs ≠ []) ∧ as.all Char.isDigit ∧ bs.all Char.isDigit then
        some ((as.foldl (fun acc c => acc * 10 + (c.toNat - 48)) 0 : ℕ) +
          ((bs.foldl (fun acc c => acc * 10 + (c.toNat - 48)) 0 : ℕ) : ℚ) /
            (10 : ℚ) ^ bs.length)
      else none
    | _ => none
  match s.data with
  | '-' :: rest => (parseUnsigned rest).map (fun q => -q)
  | '+' :: rest => parseUnsigned rest
  | cs => parseUnsigned cs

/-- Outcome of one line of the reading loop of `aggregate_ml_scores.py`. -/
inductive LineResult where
  | skip
  | record (utt_id : String) (score : ℚ)
  | fatal
deriving DecidableEq, Repr

/-- One line of the reading loop: a line is already split on tabs into
fields; fewer than 2 fields is skipped with `continue`, a field that
`float` rejects raises (fatal), otherwise the score is recorded under
the utterance id recovered from the key. -/
def readLine (fields : List String) : LineResult :=
  if fields.length < 2 then .skip
  else
    match parseFloat (fields.getD 1 "") with
    | none => .fatal
    | some score => .record (uttIdOf (fields.getD 0 "")) score

/-- `utterance_scores[utt_id].append(score)` on the dictionary,
creating the entry when absent (Python dictionaries keep insertion
order; the association list mirrors that). -/
def addScore : List (String × List ℚ) → String → ℚ → List (String × List ℚ)
  | [], u, v => [(u, [v])]
  | kv :: m, u, v =>
    if kv.1 = u then (kv.1, kv.2 ++ [v]) :: m
    else kv :: addScore m u v

/-- Lookup in the utterance dictionary (empty list when absent). -/
def valuesOf : List (String × List ℚ) → String → List ℚ
  | [], _ => []
  | kv :: m, u => if kv.1 = u then kv.2 else valuesOf m u

/-- The keys of the utterance dictionary. -/
def keysOf (m : List (String × List ℚ)) : List String := m.map Prod.fst

/-- The reading loop of `main` in `aggregate_ml_scores.py`, starting
from dictionary state `m`: an unparseable numeric field aborts the run
(the uncaught `ValueError`), a short line is skipped, a record is added
to its utterance's list. -/
def readAllFrom (m : List (String × List ℚ)) :
    List (List String) → Except Unit (List (String × List ℚ))
  | [] => .ok m
  | l :: ls =>
    match readLine l with
    | .fatal => .error ()
    | .skip => readAllFrom m ls
    | .record u v => readAllFrom (addScore m u v) ls

/-- The whole reading phase of `aggregate_ml_scores.py`. -/
def readAll (lines : List (List String)) :
    Except Unit (List (String × List ℚ)) :=
  readAllFrom [] lines

/-- One output row of `aggregate_ml_scores.py`; `std_sq` is the square
of the code's `np.std` column. -/
structure Row where
  utt_id : String
  agg_score : ℚ
  num_phones : ℕ
  min_val : ℚ
  max_val : ℚ
  std_sq : ℚ
deriving DecidableEq, Repr

/-- The method dispatch of the aggregation loop of
`aggregate_ml_scores.py`. -/
def mlAgg (method : MlMethod) (scores : List ℚ) : ℚ :=
  match method with
  | .mean => npMean scores
  | .median => npMedian scores
  | .min => npMin scores
  | .max => npMax scores

/-- One row of the aggregation loop of `aggregate_ml_scores.py`. -/
def mkRow (method : MlMethod) (u : String) (scores : List ℚ) : Row :=
  { utt_id := u
    agg_score := mlAgg method scores
    num_phones := scores.length
    min_val := npMin scores
    max_val := npMax scores
    std_sq := npStdSq scores }

/-- The output loop of `aggregate_ml_scores.py`: iterate over
`sorted(utterance_scores.keys())` and emit one row per utterance. -/
def writeRows (method : MlMethod) (m : List (String × List ℚ)) : List Row :=
  ((keysOf m).insertionSort (· ≤ ·)).map (fun u => mkRow method u (valuesOf m u))

/-- `main` of `aggregate_ml_scores.py` end to end: read and group, then
aggregate per utterance in sorted key order. -/
def runMl (method : MlMethod) (lines : List (List String)) :
    Except Unit (List Row) :=
  (readAll lines).map (writeRows method)

/-- The scores a list of lines contributes to utterance `u`, in input
order: used to characterize the reading loop's grouping. -/
def recordsOf (ls : List (List String)) (u : String) : List ℚ :=
  ls.filterMap (fun l =>
    match readLine l with
    | .record u2 v => if u2 = u then some v else none
    | _ => none)

instance {ε α : Type} [DecidableEq ε] [DecidableEq α] :
    DecidableEq (Except ε α) := fun x y =>
  match x, y with
  | .ok a, .ok b =>
    if h : a = b then .isTrue (by rw [h])
    else .isFalse (fun he => h (by cases he; rfl))
  | .error a, .error b =>
    if h : a = b then .isTrue (by rw [h])
    else .isFalse (fun he => h (by cases he; rfl))
  | .ok _, .error _ => .isFalse (fun he => by cases he)
  | .error _, .ok _ => .isFalse (fun he => by cases he)

/-! ### Helper lemmas on the statistics -/

lemma length_pos_rat {l : List ℚ} (hl : l ≠ []) : (0 : ℚ) < l.length := by
  have := List.length_pos.mpr hl
  exact_mod_cast this

lemma foldl_min_le_init (xs : List ℚ) (a : ℚ) : xs.foldl min a ≤ a := by
  induction xs generalizing a with
  | nil => exact le_refl a
  | cons x xs ih => exact le_trans (ih (min a x)) (min_le_left a x)

lemma foldl_min_le_mem (xs : List ℚ) (a : ℚ) :
    ∀ x ∈ xs, xs.foldl min a ≤ x := by
  induction xs generalizing a with
  | nil => intro x hx; cases hx
  | cons y ys ih =>
    intro x hx
    rcases List.mem_cons.mp hx with h | h
    · subst h
      exact le_trans (foldl_min_le_init ys (min a x)) (min_le_right a x)
    · exact ih (min a y) x h

lemma foldl_min_mem (xs : List ℚ) (a : ℚ) : xs.foldl min a ∈ a :: xs := by
  induction xs generalizing a with
  | nil => exact List.mem_singleton.mpr rfl
  | cons x xs ih =>
    rw [List.foldl_cons]
    have h := ih (min a x)
    rcases List.mem_cons.mp h with h | h
    · rcases min_choice a x with hc | hc
      · rw [h, hc]; exact List.mem_cons_self _ _
      · rw [h, hc]; exact List.mem_cons.mpr (Or.inr (List.mem_cons_self _ _))
    · exact List.mem_cons.mpr (Or.inr (List.mem_cons.mpr (Or.inr h)))

lemma foldl_max_le_init (xs : List ℚ) (a : ℚ) : a ≤ xs.foldl max a := by
  induction xs generalizing a with
  | nil => exact le_refl a
  | cons x xs ih => exact le_trans (le_max_left a x) (ih (max a x))

lemma foldl_max_le_mem (xs : List ℚ) (a : ℚ) :
    ∀ x ∈ xs, x ≤ xs.foldl max a := by
  induction xs generalizing a with
  | nil => intro x hx; cases hx
  | cons y ys ih =>
    intro x hx
    rcases List.mem_cons.mp hx with h | h
    · subst h
      exact le_trans (le_max_right a x) (foldl_max_le_init ys (max a x))
    · exact ih (max a y) x h

lemma foldl_max_mem (xs : List ℚ) (a : ℚ) : xs.foldl max a ∈ a :: xs := by
  induction xs generalizing a with
  | nil => exact List.mem_singleton.mpr rfl
  | cons x xs ih =>
    rw [List.foldl_cons]
    have h := ih (max a x)
    rcases List.mem_cons.mp h with h | h
    · rcases max_choice a x with hc | hc
      · rw [h, hc]; exact List.mem_cons_self _ _
      · rw [h, hc]; exact List.mem_cons.mpr (Or.inr (List.mem_cons_self _ _))
    · exact List.mem_cons.mpr (Or.inr (List.mem_cons.mpr (Or.inr h)))

lemma npMin_mem {l : List ℚ} (hl : l ≠ []) : npMin l ∈ l := by
  cases l with
  | nil => exact absurd rfl hl
  | cons x xs => exact foldl_min_mem xs x

lemma npMin_le {l : List ℚ} : ∀ x ∈ l, npMin l ≤ x := by
  cases l with
  | nil => intro x hx; cases hx
  | cons y ys =>
    intro x hx
    rcases List.mem_cons.mp hx with h | h
    · subst h; exact foldl_min_le_init ys x
    · exact foldl_min_le_mem ys y x h

lemma npMax_mem {l : List ℚ} (hl : l ≠ []) : npMax l ∈ l := by
  cases l with
  | nil => exact absurd rfl hl
  | cons x xs => exact foldl_max_mem xs x

lemma le_npMax {l : List ℚ} : ∀ x ∈ l, x ≤ npMax l := by
  cases l with
  | nil => intro x hx; cases hx
  | cons y ys =>
    intro x hx
    rcases List.mem_cons.mp hx with h | h
    · subst h; exact foldl_max_le_init ys x
    · exact foldl_max_le_mem ys y x h

lemma npMin_le_npMean {l : List ℚ} (hl : l ≠ []) : npMin l ≤ npMean l := by
  have hlen := length_pos_rat hl
  have hsum := List.card_nsmul_le_sum l (npMin l) (fun x hx => npMin_le x hx)
  rw [nsmul_eq_mul] at hsum
  unfold npMean
  rw [le_div_iff₀ hlen]
  calc npMin l * l.length = (l.length : ℚ) * npMin l := by ring
    _ ≤ l.sum := hsum

lemma npMean_le_npMax {l : List ℚ} (hl : l ≠ []) : npMean l ≤ npMax l := by
  have hlen := length_pos_rat hl
  have hsum := List.sum_le_card_nsmul l (npMax l) (fun x hx => le_npMax x hx)
  rw [nsmul_eq_mul] at hsum
  unfold npMean
  rw [div_le_iff₀ hlen]
  calc l.sum ≤ (l.length : ℚ) * npMax l := hsum
    _ = npMax l * l.length := by ring

lemma npMedian_bounds {l : List ℚ} (hl : l ≠ []) :
    npMin l ≤ npMedian l ∧ npMedian l ≤ npMax l := by
  unfold npMedian
  set s := l.insertionSort (· ≤ ·) with hs
  have hperm : List.Perm s l := l.perm_insertionSort (· ≤ ·)
  have hmem : ∀ (i : ℕ) (h : i < s.length),
      npMin l ≤ s.getD i 0 ∧ s.getD i 0 ≤ npMax l := by
    intro i h
    rw [s.getD_eq_getElem 0 h]
    have hin : s[i] ∈ l := hperm.mem_iff.mp (List.getElem_mem h)
    exact ⟨npMin_le _ hin, le_npMax _ hin⟩
  have hn : 0 < s.length := by
    rw [hperm.length_eq]
    exact List.length_pos.mpr hl
  by_cases hpar : s.length % 2 = 1
  · rw [if_pos hpar]
    exact hmem _ (Nat.div_lt_self hn (by norm_num))
  · rw [if_neg hpar]
    have hidx2 : s.length / 2 < s.length := Nat.div_lt_self hn (by norm_num)
    have hidx1 : s.length / 2 - 1 < s.length :=
      lt_of_le_of_lt (Nat.sub_le _ _) hidx2
    obtain ⟨ha1, ha2⟩ := hmem _ hidx1
    obtain ⟨hb1, hb2⟩ := hmem _ hidx2
    constructor
    · linarith
    · linarith

lemma processUtterance_eq (skip : Bool) (method : AggMethod)
    (gops : List (Int × ℚ)) (h : extractGopValues skip gops ≠ []) :
    processUtterance skip method gops = some
      { score := uttAgg method (extractGopValues skip gops)
        num_phones := (extractGopValues skip gops).length
        min_gop := npMin (extractGopValues skip gops)
        max_gop := npMax (extractGopValues skip gops)
        std_gop_sq := npStdSq (extractGopValues skip gops) } := by
  unfold processUtterance
  have hne : ¬ ((extractGopValues skip gops).length = 0) :=
    fun hh => h (List.length_eq_zero.mp hh)
  simp only [hne, if_false]

/-! ### Theorems for the claims (normalizer) -/

/-- C1: at the breakpoints of the piecewise calibration curves (default
`min_score = 0`, `max_score = 100`) the adjoining branch formulas agree
at `diff = 0, -2, -5` (baseline-relative) and at `raw = 0` and
`raw = -3` (baseline-free), but they disagree at the baseline-free
breakpoints `raw = -1` (upper branch 80, lower branch 60) and
`raw = -5` (upper branch 20, lower branch 40): the claimed continuity
fails on the code. -/
theorem c1_breakpoints_disagree :
    (brBranch1 100 = 100 ∧ brBranch2 0 100 = 100) ∧
    (brBranch2 (-2) 100 = 90 ∧ brBranch3 (-2) = 90) ∧
    (brBranch3 (-5) = 50 ∧ brBranch4 (-5) 0 = 50) ∧
    (bfBranch1 0 = 90 ∧ bfBranch2 0 = 90) ∧
    (bfBranch3 (-3) = 40 ∧ bfBranch4 (-3) = 40) ∧
    (bfBranch2 (-1) = 80 ∧ bfBranch3 (-1) = 60 ∧ bfBranch2 (-1) ≠ bfBranch3 (-1)) ∧
    (bfBranch4 (-5) = 20 ∧ bfBranch5 (-5) 0 = 40 ∧ bfBranch4 (-5) ≠ bfBranch5 (-5) 0) := by
  norm_num [brBranch1, brBranch2, brBranch3, brBranch4,
    bfBranch1, bfBranch2, bfBranch3, bfBranch4, bfBranch5]

/-- C4: for any raw value, optional baseline and bounds with
`min_score ≤ max_score`, the normalized score lies in
`[min_score, max_score]`; at `raw = -100` in baseline-free mode with
the default bounds the result is exactly `0`. -/
theorem c4_score_clamped (gop : ℚ) (baseline : Option ℚ) (mn mx : ℚ)
    (h : mn ≤ mx) :
    (mn ≤ gop_to_score gop baseline mn mx ∧ gop_to_score gop baseline mn mx ≤ mx) ∧
    gop_to_score (-100) none 0 100 = 0 := by
  refine ⟨⟨?_, ?_⟩, ?_⟩
  · unfold gop_to_score
    exact le_max_right _ _
  · unfold gop_to_score
    exact max_le (min_le_right _ _) h
  · norm_num [gop_to_score, bfBranch5]

/-- Witness for C4 at `gop = 7`, `baseline = some 2`, bounds `0, 100`. -/
theorem c4_score_clamped_witness :
    ((0 : ℚ) ≤ 100) ∧
    (((0 : ℚ) ≤ gop_to_score 7 (some 2) 0 100 ∧
        gop_to_score 7 (some 2) 0 100 ≤ 100) ∧
      gop_to_score (-100) none 0 100 = 0) :=
  ⟨by norm_num, c4_score_clamped 7 (some 2) 0 100 (by norm_num)⟩

/-- C7: the grade is a function of the clamped quality score alone,
with fixed thresholds 90 / 80 / 70 / 60; in particular `90` maps to
`Excellent` and `89.999` maps to `Good`. -/
theorem c7_grade_thresholds (q : ℚ) :
    (gradeOf q = .Excellent ↔ 90 ≤ q) ∧
    (gradeOf q = .Good ↔ 80 ≤ q ∧ q < 90) ∧
    (gradeOf q = .Fair ↔ 70 ≤ q ∧ q < 80) ∧
    (gradeOf q = .NeedsImprovement ↔ 60 ≤ q ∧ q < 70) ∧
    (gradeOf q = .Poor ↔ q < 60) ∧
    gradeOf 90 = .Excellent ∧ gradeOf (89999 / 1000) = .Good := by
  refine ⟨?_, ?_, ?_, ?_, ?_, by norm_num [gradeOf], by norm_num [gradeOf]⟩ <;>
    (unfold gradeOf; split_ifs <;> simp_all <;> intros <;> linarith)

/-- C5: when the silence-filtered values are nonempty and the sum of
absolute-value weights is zero, `weighted` aggregation falls back to
the arithmetic mean and returns `0`, producing a normal record. -/
theorem c5_weighted_zero_weight_fallback (skip : Bool) (gops : List (Int × ℚ))
    (hne : extractGopValues skip gops ≠ [])
    (hzero : ((extractGopValues skip gops).map (fun v => |v|)).sum = 0) :
    ∃ r, processUtterance skip .weighted gops = some r ∧
      r.score = npMean (extractGopValues skip gops) ∧ r.score = 0 := by
  obtain ⟨vs, hv⟩ : ∃ vs, extractGopValues skip gops = vs := ⟨_, rfl⟩
  rw [hv] at hne hzero
  have hall : ∀ v ∈ vs, v = (0 : ℚ) := by
    intro v hv2
    have habs : |v| ≤ (vs.map (fun v => |v|)).sum := by
      have hn : ∀ x ∈ vs.map (fun v => |v|), (0 : ℚ) ≤ x := by
        intro x hx
        obtain ⟨y, _, rfl⟩ := List.mem_map.mp hx
        exact abs_nonneg y
      exact List.single_le_sum hn _ (List.mem_map.mpr ⟨v, hv2, rfl⟩)
    exact abs_eq_zero.mp (le_antisymm (hzero ▸ habs) (abs_nonneg v))
  have hmean : npMean vs = 0 := by
    unfold npMean
    rw [List.sum_eq_zero hall, zero_div]
  have hagg : uttAgg .weighted vs = npMean vs := by
    simp only [uttAgg]
    rw [if_neg (by rw [hzero]; exact lt_irrefl 0)]
  refine ⟨_, processUtterance_eq skip .weighted gops (by rw [hv]; exact hne), ?_, ?_⟩
  · show uttAgg .weighted (extractGopValues skip gops) =
      npMean (extractGopValues skip gops)
    rw [hv]; exact hagg
  · show uttAgg .weighted (extractGopValues skip gops) = 0
    rw [hv, hagg, hmean]

lemma extractGopValues_eq_filter (skip : Bool) (gops : List (Int × ℚ)) :
    extractGopValues skip gops =
      (gops.filter
        (fun p => !(skip && decide (p.1 ∈ ([0, 1, 2] : List Int))))).map Prod.snd := by
  suffices h : ∀ (gs : List (Int × ℚ)) (acc : List ℚ),
      gs.foldl
        (fun gop_values p =>
          if skip ∧ p.1 ∈ ([0, 1, 2] : List Int) then gop_values
          else gop_values ++ [p.2]) acc =
        acc ++ (gs.filter
          (fun p => !(skip && decide (p.1 ∈ ([0, 1, 2] : List Int))))).map Prod.snd by
    have h2 := h gops []
    rw [List.nil_append] at h2
    exact h2
  intro gs
  induction gs with
  | nil => intro acc; simp
  | cons p t ih =>
    intro acc
    simp only [List.foldl_cons, List.filter_cons]
    by_cases h : skip ∧ p.1 ∈ ([0, 1, 2] : List Int)
    · have hb : (!(skip && decide (p.1 ∈ ([0, 1, 2] : List Int)))) = false := by
        simp [h.1, h.2]
      rw [if_pos h, hb, ih]
      simp
    · have hb : (!(skip && decide (p.1 ∈ ([0, 1, 2] : List Int)))) = true := by
        cases skip with
        | false => simp
        | true =>
          have hm : ¬ (p.1 ∈ ([0, 1, 2] : List Int)) := fun hm => h ⟨rfl, hm⟩
          simp [hm]
      rw [if_neg h, hb, ih]
      simp

lemma extractGopValues_true_filter (gops : List (Int × ℚ)) :
    extractGopValues true gops =
      (gops.filter (fun p => decide (p.1 ∉ ([0, 1, 2] : List Int)))).map Prod.snd := by
  rw [extractGopValues_eq_filter]
  congr 1
  apply List.filter_congr
  intro p _
  simp [decide_not]

lemma splitDot_no_dot {cs : List Char} (h : '.' ∉ cs) : splitDot cs = [cs] := by
  induction cs with
  | nil => rfl
  | cons c cs ih =>
    have hc : ¬ c = '.' := fun hcc => h (List.mem_cons.mpr (Or.inl hcc.symm))
    unfold splitDot
    rw [if_neg hc, ih (fun hm => h (List.mem_cons.mpr (Or.inr hm)))]

lemma empty_string_le (s : String) : "" ≤ s := by
  by_contra h
  have hlt : s < "" := lt_of_not_le h
  rw [String.lt_iff_toList_lt, String.toList_empty] at hlt
  generalize s.toList = cs at hlt
  cases hlt

lemma readLine_short {l : List String} (h : l.length < 2) :
    readLine l = .skip := by
  unfold readLine
  rw [if_pos h]

lemma readLine_badFloat {l : List String} (h : ¬ l.length < 2)
    (hp : parseFloat (l.getD 1 "") = none) : readLine l = .fatal := by
  unfold readLine
  rw [if_neg h, hp]

lemma readAllFrom_skip (pre post : List (List String)) (l : List String)
    (hl : readLine l = .skip) :
    ∀ m, readAllFrom m (pre ++ l :: post) = readAllFrom m (pre ++ post) := by
  induction pre with
  | nil =>
    intro m
    rw [List.nil_append, List.nil_append, readAllFrom, hl]
  | cons x xs ih =>
    intro m
    rw [List.cons_append, List.cons_append, readAllFrom, readAllFrom]
    cases hx : readLine x
    · exact ih m
    · exact ih _
    · rfl

lemma readAllFrom_fatal (pre post : List (List String)) (l : List String)
    (hl : readLine l = .fatal) :
    ∀ m, readAllFrom m (pre ++ l :: post) = .error () := by
  induction pre with
  | nil =>
    intro m
    rw [List.nil_append, readAllFrom, hl]
  | cons x xs ih =>
    intro m
    rw [List.cons_append, readAllFrom]
    cases hx : readLine x
    · exact ih m
    · exact ih _
    · rfl

lemma valuesOf_addScore (m : List (String × List ℚ)) (u2 : String) (v : ℚ)
    (u : String) :
    valuesOf (addScore m u2 v) u =
      valuesOf m u ++ (if u2 = u then [v] else []) := by
  induction m with
  | nil =>
    by_cases h : u2 = u
    · simp [addScore, valuesOf, h]
    · simp [addScore, valuesOf, h]
  | cons kv t ih =>
    by_cases hk : kv.1 = u2
    · rw [addScore, if_pos hk]
      by_cases hu : kv.1 = u
      · have h2 : u2 = u := hk ▸ hu
        rw [valuesOf, if_pos hu, valuesOf, if_pos hu, if_pos h2]
      · have h2 : ¬ u2 = u := fun he => hu (he ▸ hk)
        rw [valuesOf, if_neg hu, valuesOf, if_neg hu, if_neg h2]
        simp
    · rw [addScore, if_neg hk]
      by_cases hu : kv.1 = u
      · have h2 : ¬ u2 = u := fun he => hk (he ▸ hu)
        rw [valuesOf, if_pos hu, valuesOf, if_pos hu, if_neg h2]
        simp
      · rw [valuesOf, if_neg hu, valuesOf, if_neg hu, ih]

lemma mem_keysOf_addScore (m : List (String × List ℚ)) (u2 : String) (v : ℚ)
    (u : String) :
    u ∈ keysOf (addScore m u2 v) ↔ u ∈ keysOf m ∨ u = u2 := by
  induction m with
  | nil =>
    rw [addScore]
    unfold keysOf
    simp
  | cons kv t ih =>
    by_cases hk : kv.1 = u2
    · rw [addScore, if_pos hk]
      unfold keysOf
      simp only [List.map_cons, List.mem_cons]
      constructor
      · rintro (h | h)
        · exact Or.inl (Or.inl h)
        · exact Or.inl (Or.inr h)
      · rintro ((h | h) | h)
        · exact Or.inl h
        · exact Or.inr h
        · exact Or.inl (by rw [h, ← hk])
    · rw [addScore, if_neg hk]
      unfold keysOf at ih ⊢
      simp only [List.map_cons, List.mem_cons]
      rw [ih]
      tauto

lemma nodup_keysOf_addScore (m : List (String × List ℚ)) (u2 : String) (v : ℚ)
    (hnd : (keysOf m).Nodup) : (keysOf (addScore m u2 v)).Nodup := by
  induction m with
  | nil =>
    rw [addScore]
    unfold keysOf
    simp
  | cons kv t ih =>
    unfold keysOf at hnd
    rw [List.map_cons, List.nodup_cons] at hnd
    by_cases hk : kv.1 = u2
    · rw [addScore, if_pos hk]
      unfold keysOf
      rw [List.map_cons, List.nodup_cons]
      exact ⟨hnd.1, hnd.2⟩
    · rw [addScore, if_neg hk]
      unfold keysOf
      rw [List.map_cons, List.nodup_cons]
      refine ⟨fun hmem => ?_, ih hnd.2⟩
      rcases (mem_keysOf_addScore t u2 v kv.1).mp hmem with h | h
      · exact hnd.1 h
      · exact hk h

lemma values_nonempty_addScore (m : List (String × List ℚ)) (u2 : String)
    (v : ℚ) (hne : ∀ kv ∈ m, kv.2 ≠ []) :
    ∀ kv ∈ addScore m u2 v, kv.2 ≠ [] := by
  induction m with
  | nil =>
    rw [addScore]
    intro kv hkv
    rw [List.mem_singleton] at hkv
    rw [hkv]
    simp
  | cons kv0 t ih =>
    by_cases hk : kv0.1 = u2
    · rw [addScore, if_pos hk]
      intro kv hkv
      rcases List.mem_cons.mp hkv with h | h
      · rw [h]
        simp
      · exact hne kv (List.mem_cons.mpr (Or.inr h))
    · rw [addScore, if_neg hk]
      intro kv hkv
      rcases List.mem_cons.mp hkv with h | h
      · exact h ▸ hne kv0 (List.mem_cons_self _ _)
      · exact ih (fun kv2 hkv2 => hne kv2 (List.mem_cons.mpr (Or.inr hkv2))) kv h

lemma recordsOf_cons_skip {x : List String} (hx : readLine x = .skip)
    (xs : List (List String)) (u : String) :
    recordsOf (x :: xs) u = recordsOf xs u := by
  unfold recordsOf
  rw [List.filterMap_cons, hx]

lemma recordsOf_cons_fatal {x : List String} (hx : readLine x = .fatal)
    (xs : List (List String)) (u : String) :
    recordsOf (x :: xs) u = recordsOf xs u := by
  unfold recordsOf
  rw [List.filterMap_cons, hx]

lemma recordsOf_cons_record {x : List String} {u2 : String} {v : ℚ}
    (hx : readLine x = .record u2 v) (xs : List (List String)) (u : String) :
    recordsOf (x :: xs) u =
      (if u2 = u then v :: recordsOf xs u else recordsOf xs u) := by
  unfold recordsOf
  rw [List.filterMap_cons, hx]
  by_cases h : u2 = u
  · simp only [if_pos h]
  · simp only [if_neg h]

lemma readAllFrom_error_iff (ls : List (List String)) :
    ∀ m, readAllFrom m ls = .error () ↔ ∃ l ∈ ls, readLine l = .fatal := by
  induction ls with
  | nil =>
    intro m
    rw [readAllFrom]
    simp
  | cons x xs ih =>
    intro m
    rw [readAllFrom]
    cases hx : readLine x
    · rw [ih m]
      constructor
      · rintro ⟨l, hl, hf⟩
        exact ⟨l, List.mem_cons.mpr (Or.inr hl), hf⟩
      · rintro ⟨l, hl, hf⟩
        rcases List.mem_cons.mp hl with rfl | hl
        · rw [hx] at hf
          cases hf
        · exact ⟨l, hl, hf⟩
    · rw [ih _]
      constructor
      · rintro ⟨l, hl, hf⟩
        exact ⟨l, List.mem_cons.mpr (Or.inr hl), hf⟩
      · rintro ⟨l, hl, hf⟩
        rcases List.mem_cons.mp hl with rfl | hl
        · rw [hx] at hf
          cases hf
        · exact ⟨l, hl, hf⟩
    · constructor
      · intro _
        exact ⟨x, List.mem_cons_self _ _, hx⟩
      · intro _
        rfl

lemma readAllFrom_ok_exists (ls : List (List String)) :
    ∀ m, (¬ ∃ l ∈ ls, readLine l = .fatal) →
      ∃ g, readAllFrom m ls = .ok g ∧
        (∀ u, valuesOf g u = valuesOf m u ++ recordsOf ls u) ∧
        (∀ u, u ∈ keysOf g ↔ u ∈ keysOf m ∨ recordsOf ls u ≠ []) ∧
        ((keysOf m).Nodup → (keysOf g).Nodup) ∧
        ((∀ kv ∈ m, kv.2 ≠ []) → ∀ kv ∈ g, kv.2 ≠ []) := by
  induction ls with
  | nil =>
    intro m _
    refine ⟨m, by rw [readAllFrom], fun u => ?_, fun u => ?_, id, fun h => h⟩
    · unfold recordsOf
      simp
    · unfold recordsOf
      simp
  | cons x xs ih =>
    intro m hnf
    have hnf2 : ¬ ∃ l ∈ xs, readLine l = .fatal := by
      rintro ⟨l, hl, hf⟩
      exact hnf ⟨l, List.mem_cons.mpr (Or.inr hl), hf⟩
    cases hx : readLine x with
    | skip =>
      obtain ⟨g, hg, hv, hk, hnd, hne⟩ := ih m hnf2
      refine ⟨g, ?_, fun u => ?_, fun u => ?_, hnd, hne⟩
      · rw [readAllFrom, hx]
        exact hg
      · rw [recordsOf_cons_skip hx]
        exact hv u
      · rw [recordsOf_cons_skip hx]
        exact hk u
    | fatal =>
      exact absurd ⟨x, List.mem_cons_self _ _, hx⟩ hnf
    | record u2 v =>
      obtain ⟨g, hg, hv, hk, hnd, hne⟩ := ih (addScore m u2 v) hnf2
      refine ⟨g, ?_, fun u => ?_, fun u => ?_, ?_, ?_⟩
      · rw [readAllFrom, hx]
        exact hg
      · rw [recordsOf_cons_record hx, hv u, valuesOf_addScore]
        by_cases h : u2 = u
        · rw [if_pos h, if_pos h]
          simp
        · rw [if_neg h, if_neg h]
          simp
      · rw [recordsOf_cons_record hx, hk u, mem_keysOf_addScore]
        by_cases h : u2 = u
        · rw [if_pos h]
          simp [h.symm]
        · rw [if_neg h]
          constructor
          · rintro ((hm | he) | hr)
            · exact Or.inl hm
            · exact absurd he.symm h
            · exact Or.inr hr
          · rintro (hm | hr)
            · exact Or.inl (Or.inl hm)
            · exact Or.inr hr
      · intro hm
        exact hnd (nodup_keysOf_addScore m u2 v hm)
      · intro hm
        exact hne (values_nonempty_addScore m u2 v hm)

lemma npMin_perm {l1 l2 : List ℚ} (h : List.Perm l1 l2) :
    npMin l1 = npMin l2 := by
  by_cases h1 : l1 = []
  · subst h1
    rw [h.symm.eq_nil]
  · have h2' : l2 ≠ [] := fun he => h1 ((he ▸ h : List.Perm l1 []).eq_nil)
    exact le_antisymm
      (npMin_le _ (h.mem_iff.mpr (npMin_mem h2')))
      (npMin_le _ (h.mem_iff.mp (npMin_mem h1)))

lemma npMax_perm {l1 l2 : List ℚ} (h : List.Perm l1 l2) :
    npMax l1 = npMax l2 := by
  by_cases h1 : l1 = []
  · subst h1
    rw [h.symm.eq_nil]
  · have h2 : l2 ≠ [] := fun he => h1 ((he ▸ h : List.Perm l1 []).eq_nil)
    exact le_antisymm
      (le_npMax _ (h.mem_iff.mp (npMax_mem h1)))
      (le_npMax _ (h.mem_iff.mpr (npMax_mem h2)))

lemma npMean_perm {l1 l2 : List ℚ} (h : List.Perm l1 l2) :
    npMean l1 = npMean l2 := by
  unfold npMean
  rw [h.sum_eq, h.length_eq]

lemma insertionSort_perm_eq {l1 l2 : List ℚ} (h : List.Perm l1 l2) :
    l1.insertionSort (· ≤ ·) = l2.insertionSort (· ≤ ·) :=
  List.eq_of_perm_of_sorted
    ((l1.perm_insertionSort (· ≤ ·)).trans
      (h.trans (l2.perm_insertionSort (· ≤ ·)).symm))
    (List.sorted_insertionSort (· ≤ ·) l1)
    (List.sorted_insertionSort (· ≤ ·) l2)

lemma npMedian_perm {l1 l2 : List ℚ} (h : List.Perm l1 l2) :
    npMedian l1 = npMedian l2 := by
  unfold npMedian
  rw [insertionSort_perm_eq h]

lemma npStdSq_perm {l1 l2 : List ℚ} (h : List.Perm l1 l2) :
    npStdSq l1 = npStdSq l2 := by
  unfold npStdSq
  rw [npMean_perm h, (h.map (fun v => (v - npMean l2) ^ 2)).sum_eq, h.length_eq]

lemma mkRow_perm (method : MlMethod) (u : String) {l1 l2 : List ℚ}
    (h : List.Perm l1 l2) : mkRow method u l1 = mkRow method u l2 := by
  cases method <;>
    simp [mkRow, mlAgg, npMean_perm h, npMedian_perm h, npMin_perm h,
      npMax_perm h, npStdSq_perm h, h.length_eq]

lemma writeRows_utts (method : MlMethod) (g : List (String × List ℚ)) :
    (writeRows method g).map Row.utt_id = (keysOf g).insertionSort (· ≤ ·) := by
  unfold writeRows
  rw [List.map_map]
  have hcomp : (Row.utt_id ∘ fun u => mkRow method u (valuesOf g u)) =
      fun u => u := by
    funext u
    rfl
  rw [hcomp, List.map_id']

/-- Witness for C5 at the filtered value list `[0, 0]`. -/
theorem c5_weighted_zero_weight_fallback_witness :
    extractGopValues true [((5 : Int), (0 : ℚ)), ((6 : Int), (0 : ℚ))] ≠ [] ∧
    ((extractGopValues true [((5 : Int), (0 : ℚ)), ((6 : Int), (0 : ℚ))]).map
      (fun v => |v|)).sum = 0 ∧
    ∃ r, processUtterance true .weighted
        [((5 : Int), (0 : ℚ)), ((6 : Int), (0 : ℚ))] = some r ∧
      r.score = npMean (extractGopValues true
        [((5 : Int), (0 : ℚ)), ((6 : Int), (0 : ℚ))]) ∧ r.score = 0 :=
  ⟨by decide, by norm_num [extractGopValues],
    c5_weighted_zero_weight_fallback true [((5 : Int), 0), ((6 : Int), 0)]
      (by decide) (by norm_num [extractGopValues])⟩

/-- C2 counterexample: no single aggregator accepts all five methods —
`aggregate_utterance_scores.py` rejects `max` and
`aggregate_ml_scores.py` rejects `weighted`. -/
theorem c2_method_sets_differ :
    ("max" ∉ utteranceMethodChoices) ∧ ("weighted" ∉ mlMethodChoices) := by
  decide

/-- C2 (amended): `aggregate_utterance_scores.py` accepts exactly
`{mean, median, min, weighted}` and `aggregate_ml_scores.py` exactly
`{mean, median, min, max}`; on a nonempty value list each accepted
method yields the corresponding statistic: the arithmetic mean
(characterized by `mean * count = sum`), the statistical median (middle
of a sorted permutation, averaging the two middles for even counts),
the least member, the greatest member, and the
absolute-magnitude-weighted mean (characterized by
`weighted * Σ|v| = Σ v·|v|` when `Σ|v| ≠ 0`). -/
theorem c2_accepted_methods_statistics (l : List ℚ) (hl : l ≠ []) :
    (utteranceMethodChoices = ["mean", "median", "min", "weighted"] ∧
      mlMethodChoices = ["mean", "median", "min", "max"]) ∧
    (uttAgg .mean l = npMean l ∧ uttAgg .median l = npMedian l ∧
      uttAgg .min l = npMin l ∧
      mlAgg .mean l = npMean l ∧ mlAgg .median l = npMedian l ∧
      mlAgg .min l = npMin l ∧ mlAgg .max l = npMax l) ∧
    npMean l * l.length = l.sum ∧
    (npMin l ∈ l ∧ ∀ x ∈ l, npMin l ≤ x) ∧
    (npMax l ∈ l ∧ ∀ x ∈ l, x ≤ npMax l) ∧
    (∃ s, List.Perm s l ∧ s.Sorted (· ≤ ·) ∧
      npMedian l = (if s.length % 2 = 1 then s.getD (s.length / 2) 0
        else (s.getD (s.length / 2 - 1) 0 + s.getD (s.length / 2) 0) / 2)) ∧
    ((l.map (fun v => |v|)).sum ≠ 0 →
      uttAgg .weighted l * (l.map (fun v => |v|)).sum =
        ((l.zip (l.map (fun v => |v|))).map (fun p => p.1 * p.2)).sum) := by
  have hlen : ((l.length : ℚ)) ≠ 0 := ne_of_gt (length_pos_rat hl)
  refine ⟨⟨rfl, rfl⟩, ⟨rfl, rfl, rfl, rfl, rfl, rfl, rfl⟩, ?_, ?_, ?_, ?_, ?_⟩
  · unfold npMean
    exact div_mul_cancel₀ l.sum hlen
  · exact ⟨npMin_mem hl, npMin_le⟩
  · exact ⟨npMax_mem hl, fun x hx => le_npMax x hx⟩
  · exact ⟨l.insertionSort (· ≤ ·), l.perm_insertionSort (· ≤ ·),
      List.sorted_insertionSort (· ≤ ·) l, rfl⟩
  · intro hw
    have hnn : (0 : ℚ) ≤ (l.map (fun v => |v|)).sum :=
      List.sum_nonneg (fun a ha => by
        obtain ⟨y, _, rfl⟩ := List.mem_map.mp ha
        exact abs_nonneg y)
    have hpos : (0 : ℚ) < (l.map (fun v => |v|)).sum :=
      lt_of_le_of_ne hnn (Ne.symm hw)
    show (if (l.map (fun v => |v|)).sum > 0 then _ else _) * _ = _
    rw [if_pos hpos]
    exact div_mul_cancel₀ _ hw

/-- Witness for C2 (amended) at the value list `[3, 1, 2]`. -/
theorem c2_accepted_methods_statistics_witness :
    ([(3 : ℚ), 1, 2] ≠ []) ∧
    ((utteranceMethodChoices = ["mean", "median", "min", "weighted"] ∧
      mlMethodChoices = ["mean", "median", "min", "max"]) ∧
    (uttAgg .mean [(3 : ℚ), 1, 2] = npMean [(3 : ℚ), 1, 2] ∧
      uttAgg .median [(3 : ℚ), 1, 2] = npMedian [(3 : ℚ), 1, 2] ∧
      uttAgg .min [(3 : ℚ), 1, 2] = npMin [(3 : ℚ), 1, 2] ∧
      mlAgg .mean [(3 : ℚ), 1, 2] = npMean [(3 : ℚ), 1, 2] ∧
      mlAgg .median [(3 : ℚ), 1, 2] = npMedian [(3 : ℚ), 1, 2] ∧
      mlAgg .min [(3 : ℚ), 1, 2] = npMin [(3 : ℚ), 1, 2] ∧
      mlAgg .max [(3 : ℚ), 1, 2] = npMax [(3 : ℚ), 1, 2]) ∧
    npMean [(3 : ℚ), 1, 2] * ([(3 : ℚ), 1, 2] : List ℚ).length =
      ([(3 : ℚ), 1, 2] : List ℚ).sum ∧
    (npMin [(3 : ℚ), 1, 2] ∈ [(3 : ℚ), 1, 2] ∧
      ∀ x ∈ [(3 : ℚ), 1, 2], npMin [(3 : ℚ), 1, 2] ≤ x) ∧
    (npMax [(3 : ℚ), 1, 2] ∈ [(3 : ℚ), 1, 2] ∧
      ∀ x ∈ [(3 : ℚ), 1, 2], x ≤ npMax [(3 : ℚ), 1, 2]) ∧
    (∃ s, List.Perm s [(3 : ℚ), 1, 2] ∧ s.Sorted (· ≤ ·) ∧
      npMedian [(3 : ℚ), 1, 2] =
        (if s.length % 2 = 1 then s.getD (s.length / 2) 0
          else (s.getD (s.length / 2 - 1) 0 + s.getD (s.length / 2) 0) / 2)) ∧
    (((([(3 : ℚ), 1, 2] : List ℚ).map (fun v => |v|)).sum ≠ 0 →
      uttAgg .weighted [(3 : ℚ), 1, 2] *
          (([(3 : ℚ), 1, 2] : List ℚ).map (fun v => |v|)).sum =
        ((([(3 : ℚ), 1, 2] : List ℚ).zip
            (([(3 : ℚ), 1, 2] : List ℚ).map (fun v => |v|))).map
          (fun p => p.1 * p.2)).sum))) :=
  ⟨by decide, c2_accepted_methods_statistics [(3 : ℚ), 1, 2] (by decide)⟩

/-- C3: with silence filtering on, `aggregate_utterance_scores.py`
removes every entry whose phone id is in `{0, 1, 2}` before computing
any statistic — count, min, max and squared standard deviation are all
taken over the post-filter values for every method; the squared
standard deviation uses divisor = count (population:
`npStdSq [0, 2] = 1`, not the sample value `2`); and on the input
`[(0, 1.0), (5, -2.0), (1, 3.0)]` the result has `phone_count = 1` and
`min = max = -2.0`. -/
theorem c3_silence_filtering (method : AggMethod) (gops : List (Int × ℚ))
    (h : extractGopValues true gops ≠ []) :
    (∃ r, processUtterance true method gops = some r ∧
      r.num_phones =
        ((gops.filter (fun p => decide (p.1 ∉ ([0, 1, 2] : List Int)))).map
          Prod.snd).length ∧
      r.min_gop = npMin ((gops.filter
        (fun p => decide (p.1 ∉ ([0, 1, 2] : List Int)))).map Prod.snd) ∧
      r.max_gop = npMax ((gops.filter
        (fun p => decide (p.1 ∉ ([0, 1, 2] : List Int)))).map Prod.snd) ∧
      r.std_gop_sq = npStdSq ((gops.filter
        (fun p => decide (p.1 ∉ ([0, 1, 2] : List Int)))).map Prod.snd)) ∧
    npStdSq [0, 2] = 1 ∧
    (∃ r, processUtterance true method
        [((0 : Int), (1 : ℚ)), ((5 : Int), (-2 : ℚ)), ((1 : Int), (3 : ℚ))] =
          some r ∧
      r.num_phones = 1 ∧ r.min_gop = -2 ∧ r.max_gop = -2) := by
  refine ⟨?_, ?_, ?_⟩
  · refine ⟨_, processUtterance_eq true method gops h, ?_, ?_, ?_, ?_⟩ <;>
      rw [show (extractGopValues true gops) =
        ((gops.filter (fun p => decide (p.1 ∉ ([0, 1, 2] : List Int)))).map
          Prod.snd) from extractGopValues_true_filter gops]
  · norm_num [npStdSq, npMean, List.sum_cons, List.sum_nil]
  · have hex : extractGopValues true
        [((0 : Int), (1 : ℚ)), ((5 : Int), (-2 : ℚ)), ((1 : Int), (3 : ℚ))] =
          [(-2 : ℚ)] := by decide
    refine ⟨_, processUtterance_eq true method _ (by rw [hex]; decide),
      ?_, ?_, ?_⟩ <;> rw [hex] <;> rfl

/-- Witness for C3 at `method = mean` and the example input. -/
theorem c3_silence_filtering_witness :
    extractGopValues true
      [((0 : Int), (1 : ℚ)), ((5 : Int), (-2 : ℚ)), ((1 : Int), (3 : ℚ))] ≠ [] ∧
    ((∃ r, processUtterance true .mean
        [((0 : Int), (1 : ℚ)), ((5 : Int), (-2 : ℚ)), ((1 : Int), (3 : ℚ))] =
          some r ∧
      r.num_phones =
        (([((0 : Int), (1 : ℚ)), ((5 : Int), (-2 : ℚ)), ((1 : Int), (3 : ℚ))].filter
          (fun p => decide (p.1 ∉ ([0, 1, 2] : List Int)))).map Prod.snd).length ∧
      r.min_gop = npMin (([((0 : Int), (1 : ℚ)), ((5 : Int), (-2 : ℚ)),
          ((1 : Int), (3 : ℚ))].filter
        (fun p => decide (p.1 ∉ ([0, 1, 2] : List Int)))).map Prod.snd) ∧
      r.max_gop = npMax (([((0 : Int), (1 : ℚ)), ((5 : Int), (-2 : ℚ)),
          ((1 : Int), (3 : ℚ))].filter
        (fun p => decide (p.1 ∉ ([0, 1, 2] : List Int)))).map Prod.snd) ∧
      r.std_gop_sq = npStdSq (([((0 : Int), (1 : ℚ)), ((5 : Int), (-2 : ℚ)),
          ((1 : Int), (3 : ℚ))].filter
        (fun p => decide (p.1 ∉ ([0, 1, 2] : List Int)))).map Prod.snd)) ∧
    npStdSq [0, 2] = 1 ∧
    (∃ r, processUtterance true .mean
        [((0 : Int), (1 : ℚ)), ((5 : Int), (-2 : ℚ)), ((1 : Int), (3 : ℚ))] =
          some r ∧
      r.num_phones = 1 ∧ r.min_gop = -2 ∧ r.max_gop = -2)) :=
  ⟨by decide, c3_silence_filtering .mean
    [((0 : Int), (1 : ℚ)), ((5 : Int), (-2 : ℚ)), ((1 : Int), (3 : ℚ))]
    (by decide)⟩

/-- C8: for every nonempty utterance group, the aggregate value under
`mean` and under `median` lies between the `min` and `max` summary
statistics of the same group, in both aggregation scripts. -/
theorem c8_mean_median_within_bounds (u : String) (l : List ℚ) (hl : l ≠ [])
    (skip : Bool) (gops : List (Int × ℚ)) :
    ((mkRow .mean u l).min_val ≤ (mkRow .mean u l).agg_score ∧
      (mkRow .mean u l).agg_score ≤ (mkRow .mean u l).max_val) ∧
    ((mkRow .median u l).min_val ≤ (mkRow .median u l).agg_score ∧
      (mkRow .median u l).agg_score ≤ (mkRow .median u l).max_val) ∧
    (∀ r, processUtterance skip .mean gops = some r →
      r.min_gop ≤ r.score ∧ r.score ≤ r.max_gop) ∧
    (∀ r, processUtterance skip .median gops = some r →
      r.min_gop ≤ r.score ∧ r.score ≤ r.max_gop) := by
  have hproc : ∀ method, ∀ r : UttResult,
      processUtterance skip method gops = some r →
        r = { score := uttAgg method (extractGopValues skip gops)
              num_phones := (extractGopValues skip gops).length
              min_gop := npMin (extractGopValues skip gops)
              max_gop := npMax (extractGopValues skip gops)
              std_gop_sq := npStdSq (extractGopValues skip gops) } ∧
        extractGopValues skip gops ≠ [] := by
    intro method r hr
    unfold processUtterance at hr
    by_cases hvs : (extractGopValues skip gops).length = 0
    · rw [if_pos hvs] at hr
      exact absurd hr (by simp)
    · rw [if_neg hvs] at hr
      exact ⟨(Option.some.inj hr).symm,
        fun he => hvs (by rw [he]; rfl)⟩
  refine ⟨⟨?_, ?_⟩, ⟨?_, ?_⟩, ?_, ?_⟩
  · exact npMin_le_npMean hl
  · exact npMean_le_npMax hl
  · exact (npMedian_bounds hl).1
  · exact (npMedian_bounds hl).2
  · intro r hr
    obtain ⟨rfl, hne⟩ := hproc .mean r hr
    exact ⟨npMin_le_npMean hne, npMean_le_npMax hne⟩
  · intro r hr
    obtain ⟨rfl, hne⟩ := hproc .median r hr
    exact npMedian_bounds hne

/-- Witness for C8 at the group `[3, 1, 2]` and input `[(5, 1), (5, 2)]`. -/
theorem c8_mean_median_within_bounds_witness :
    ([(3 : ℚ), 1, 2] ≠ []) ∧
    (((mkRow .mean "u" [(3 : ℚ), 1, 2]).min_val ≤
        (mkRow .mean "u" [(3 : ℚ), 1, 2]).agg_score ∧
      (mkRow .mean "u" [(3 : ℚ), 1, 2]).agg_score ≤
        (mkRow .mean "u" [(3 : ℚ), 1, 2]).max_val) ∧
    ((mkRow .median "u" [(3 : ℚ), 1, 2]).min_val ≤
        (mkRow .median "u" [(3 : ℚ), 1, 2]).agg_score ∧
      (mkRow .median "u" [(3 : ℚ), 1, 2]).agg_score ≤
        (mkRow .median "u" [(3 : ℚ), 1, 2]).max_val) ∧
    (∀ r, processUtterance true .mean [((5 : Int), (1 : ℚ)), ((5 : Int), (2 : ℚ))] =
        some r → r.min_gop ≤ r.score ∧ r.score ≤ r.max_gop) ∧
    (∀ r, processUtterance true .median [((5 : Int), (1 : ℚ)), ((5 : Int), (2 : ℚ))] =
        some r → r.min_gop ≤ r.score ∧ r.score ≤ r.max_gop)) :=
  ⟨by decide, c8_mean_median_within_bounds "u" [(3 : ℚ), 1, 2] (by decide)
    true [((5 : Int), (1 : ℚ)), ((5 : Int), (2 : ℚ))]⟩

/-- C6: in the flat keyed format, a line with fewer than 2
tab-separated fields is silently skipped — removing it from anywhere in
the input leaves the whole run's result unchanged — while a line whose
second field does not parse as a float aborts the whole run with an
error (no output rows are produced), for every aggregation method. -/
theorem c6_short_skipped_unparseable_fatal (method : MlMethod)
    (pre post : List (List String)) (l : List String) :
    (l.length < 2 →
      runMl method (pre ++ l :: post) = runMl method (pre ++ post)) ∧
    (2 ≤ l.length → parseFloat (l.getD 1 "") = none →
      runMl method (pre ++ l :: post) = .error ()) := by
  constructor
  · intro h
    unfold runMl readAll
    rw [readAllFrom_skip pre post l (readLine_short h) []]
  · intro h2 hp
    unfold runMl readAll
    rw [readAllFrom_fatal pre post l (readLine_badFloat (not_lt.mpr h2) hp) []]
    rfl

/-- Witness for C6: a 1-field line is dropped, an unparseable value
aborts. -/
theorem c6_short_skipped_unparseable_fatal_witness :
    ((["x"] : List String).length < 2 ∧
      runMl .mean ([] ++ ["x"] :: [["a.0", "1"]]) =
        runMl .mean ([] ++ [["a.0", "1"]])) ∧
    (2 ≤ (["k", "abc"] : List String).length ∧
      parseFloat ((["k", "abc"] : List String).getD 1 "") = none ∧
      runMl .mean ([] ++ ["k", "abc"] :: [["a.0", "1"]]) = .error ()) :=
  ⟨⟨by decide,
    (c6_short_skipped_unparseable_fatal .mean [] [["a.0", "1"]] ["x"]).1
      (by decide)⟩,
   ⟨by decide, by decide,
    (c6_short_skipped_unparseable_fatal .mean [] [["a.0", "1"]] ["k", "abc"]).2
      (by decide) (by decide)⟩⟩

/-- C9: the ml aggregator's run result is invariant under any
permutation of the input lines (same error, or exactly the same rows),
and the rows of every successful run are sorted by utterance id — the
order is fixed at write time, independent of insertion order. -/
theorem c9_perm_invariant_output_sorted (method : MlMethod)
    (ls₁ ls₂ : List (List String)) (hp : List.Perm ls₁ ls₂) :
    runMl method ls₁ = runMl method ls₂ ∧
    (∀ rows, runMl method ls₁ = .ok rows →
      List.Sorted (· ≤ ·) (rows.map Row.utt_id)) := by
  constructor
  · by_cases hf : ∃ l ∈ ls₁, readLine l = .fatal
    · have hf₂ : ∃ l ∈ ls₂, readLine l = .fatal := by
        obtain ⟨l, hl, h⟩ := hf
        exact ⟨l, hp.mem_iff.mp hl, h⟩
      unfold runMl readAll
      rw [(readAllFrom_error_iff ls₁ []).mpr hf,
        (readAllFrom_error_iff ls₂ []).mpr hf₂]
    · have hf₂ : ¬ ∃ l ∈ ls₂, readLine l = .fatal := by
        rintro ⟨l, hl, h⟩
        exact hf ⟨l, hp.mem_iff.mpr hl, h⟩
      obtain ⟨g₁, hg₁, hv₁, hk₁, hnd₁, _⟩ := readAllFrom_ok_exists ls₁ [] hf
      obtain ⟨g₂, hg₂, hv₂, hk₂, hnd₂, _⟩ := readAllFrom_ok_exists ls₂ [] hf₂
      have hval₁ : ∀ u, valuesOf g₁ u = recordsOf ls₁ u := fun u => by
        have h := hv₁ u
        rwa [show valuesOf [] u = [] from rfl, List.nil_append] at h
      have hval₂ : ∀ u, valuesOf g₂ u = recordsOf ls₂ u := fun u => by
        have h := hv₂ u
        rwa [show valuesOf [] u = [] from rfl, List.nil_append] at h
      have hrec : ∀ u, List.Perm (recordsOf ls₁ u) (recordsOf ls₂ u) :=
        fun u => hp.filterMap _
      have hkey₁ : ∀ u, u ∈ keysOf g₁ ↔ recordsOf ls₁ u ≠ [] := fun u => by
        have h := hk₁ u
        rw [show keysOf ([] : List (String × List ℚ)) = [] from rfl] at h
        simpa using h
      have hkey₂ : ∀ u, u ∈ keysOf g₂ ↔ recordsOf ls₂ u ≠ [] := fun u => by
        have h := hk₂ u
        rw [show keysOf ([] : List (String × List ℚ)) = [] from rfl] at h
        simpa using h
      have hn₁ : (keysOf g₁).Nodup := hnd₁ List.nodup_nil
      have hn₂ : (keysOf g₂).Nodup := hnd₂ List.nodup_nil
      have hpermkeys : List.Perm (keysOf g₁) (keysOf g₂) :=
        (List.perm_ext_iff_of_nodup hn₁ hn₂).mpr (fun u => by
          rw [hkey₁ u, hkey₂ u]
          apply not_congr
          constructor
          · intro h1
            exact ((h1 ▸ hrec u : List.Perm [] _).symm).eq_nil
          · intro h2
            exact (h2 ▸ hrec u : List.Perm _ []).eq_nil)
      have hsortkeys : (keysOf g₁).insertionSort (· ≤ ·) =
          (keysOf g₂).insertionSort (· ≤ ·) :=
        List.eq_of_perm_of_sorted
          (((keysOf g₁).perm_insertionSort (· ≤ ·)).trans
            (hpermkeys.trans ((keysOf g₂).perm_insertionSort (· ≤ ·)).symm))
          (List.sorted_insertionSort (· ≤ ·) (keysOf g₁))
          (List.sorted_insertionSort (· ≤ ·) (keysOf g₂))
      have hrows : writeRows method g₁ = writeRows method g₂ := by
        unfold writeRows
        rw [hsortkeys]
        apply List.map_congr_left
        intro u _
        apply mkRow_perm
        rw [hval₁ u, hval₂ u]
        exact hrec u
      unfold runMl readAll
      rw [hg₁, hg₂]
      show Except.ok (writeRows method g₁) = Except.ok (writeRows method g₂)
      rw [hrows]
  · intro rows hr
    unfold runMl at hr
    cases hra : readAll ls₁ with
    | error e =>
      rw [hra] at hr
      cases hr
    | ok g =>
      rw [hra] at hr
      have hrw : rows = writeRows method g := by
        have := Except.ok.inj hr
        exact this.symm
      rw [hrw, writeRows_utts]
      exact List.sorted_insertionSort (· ≤ ·) (keysOf g)

/-- Witness for C9 at a two-line input and its transposition. -/
theorem c9_perm_invariant_output_sorted_witness :
    List.Perm [["a.0", "1"], ["b.0", "2"]] [["b.0", "2"], ["a.0", "1"]] ∧
    (runMl .mean [["a.0", "1"], ["b.0", "2"]] =
        runMl .mean [["b.0", "2"], ["a.0", "1"]] ∧
      (∀ rows, runMl .mean [["a.0", "1"], ["b.0", "2"]] = .ok rows →
        List.Sorted (· ≤ ·) (rows.map Row.utt_id))) :=
  ⟨List.Perm.swap _ _ _,
    c9_perm_invariant_output_sorted .mean
      [["a.0", "1"], ["b.0", "2"]] [["b.0", "2"], ["a.0", "1"]]
      (List.Perm.swap _ _ _)⟩

/-- C10: a flat-format key with no dot yields the empty utterance id —
the record is kept, grouped under `""` with every other dotless key,
and the `""` group is emitted first, since `""` precedes every
utterance id in the output order. -/
theorem c10_dotless_key_empty_utterance :
    (∀ key : String, '.' ∉ key.data → uttIdOf key = "") ∧
    (∀ s : String, "" ≤ s) ∧
    readAll [["abc", "1"], ["x.0", "2"], ["def", "3"]] =
      .ok [("", [(1 : ℚ), 3]), ("x", [(2 : ℚ)])] ∧
    (writeRows .mean [("", [(1 : ℚ), 3]), ("x", [(2 : ℚ)])]).map Row.utt_id =
      ["", "x"] := by
  refine ⟨?_, ?_, ?_, ?_⟩
  · intro key h
    unfold uttIdOf
    rw [splitDot_no_dot h]
    rfl
  · exact empty_string_le
  · decide
  · rw [writeRows_utts]
    show List.insertionSort (· ≤ ·) ["", "x"] = ["", "x"]
    rw [List.insertionSort, List.insertionSort, List.insertionSort,
      List.orderedInsert, List.orderedInsert, if_pos (empty_string_le "x")]

/-- Witness for C10 at the dotless key `"abc"`. -/
theorem c10_dotless_key_empty_utterance_witness :
    ('.' ∉ ("abc" : String).data) ∧ uttIdOf "abc" = "" :=
  ⟨by decide, c10_dotless_key_empty_utterance.1 "abc" (by decide)⟩

end GopScore
